import Mathlib

/-!
# IMA / FPCR header (`security/integrity/ima/ima.h`): shallow embedding

The header carries a handful of inline functions and macros; they are embedded
here as executable Lean functions, next to the enum of file-label actions.

Conventions
* `u8` is a byte; the integer promotion of `digest[i]` is `(digest[i]).val`.
* A `u8 *` argument is a list of bytes; a read past its end is undefined in C
  and is `none` here.
* `int` is a 32-bit two's-complement integer carried in `Int`; the one place
  where an addition can leave the range wraps explicitly (`wrap_int`).
-/

namespace IMA

/-! ## Measurement hash table -/

/-- A byte (`u8`). -/
abbrev u8 := Fin 256

/-- `#define IMA_HASH_BITS 10` -/
def IMA_HASH_BITS : Nat := 10

/-- `#define IMA_MEASURE_HTABLE_SIZE (1 << IMA_HASH_BITS)` -/
def IMA_MEASURE_HTABLE_SIZE : Nat := 1 <<< IMA_HASH_BITS

/-- `struct ima_h_table`: two counters and `IMA_MEASURE_HTABLE_SIZE` chains. -/
structure ima_h_table (entry : Type) where
  len : Int
  violations : Int
  queue : List (List entry)
  queue_size : queue.length = IMA_MEASURE_HTABLE_SIZE

/-- `ima_hash_key`:
`return (digest[0] | digest[1] << 8) % IMA_MEASURE_HTABLE_SIZE;`
(`<<` binds tighter than `|`, both bytes are promoted to `int`). -/
def ima_hash_key (digest : List u8) : Option Nat := do
  let d0 ← digest[0]?
  let d1 ← digest[1]?
  pure ((d0.val ||| (d1.val <<< 8)) % IMA_MEASURE_HTABLE_SIZE)

/-! ## Merkle tree -/

/-- The error taxonomy of the design. -/
inductive fpcr_error where
  | Full
  | NoMemory
  | InvalidTransition
  | HashFailure
  | DuplicateNamespace
  deriving DecidableEq, Repr

/-- `#define MERKLE_TREE_SIZE (64)` -/
def MERKLE_TREE_SIZE : Int := 64

/-- `struct merkle_tree_node`. -/
structure merkle_tree_node where
  used : Int
  random : Int
  data : List u8

/-- `struct merkle_tree` (the hash transform handle and the list linkage carry
no data of their own and are left out). -/
structure merkle_tree where
  id : Int
  last_empty : Int
  node_list : List merkle_tree_node

/-- `#define merkle_tree_isfull(mt) ((mt)->last_empty >= MERKLE_TREE_SIZE)` -/
def merkle_tree_isfull (mt : merkle_tree) : Bool :=
  decide (mt.last_empty ≥ MERKLE_TREE_SIZE)

/-- `#define merkle_tree_id(mt) ((mt)->id)` -/
def merkle_tree_id (mt : merkle_tree) : Int := mt.id

/-- Modelled from the spec: `merkle_tree_get_empty` is only declared in this
header (`extern int merkle_tree_get_empty(struct merkle_tree *mt);`). It returns
`last_empty` and advances it by one; when the tree is at capacity
(`merkle_tree_isfull`) it signals `Full` and allocates nothing. -/
def merkle_tree_get_empty (mt : merkle_tree) : Except fpcr_error (Int × merkle_tree) :=
  if merkle_tree_isfull mt then .error .Full
  else .ok (mt.last_empty, { mt with last_empty := mt.last_empty + 1 })

/-- The leaves handed out by `calls` successive `merkle_tree_get_empty`, or the
first error met. -/
def merkle_tree_get_empty_run : Nat → merkle_tree → Except fpcr_error (List Int × merkle_tree)
  | 0, mt => .ok ([], mt)
  | calls + 1, mt =>
    match merkle_tree_get_empty mt with
    | .error e => .error e
    | .ok (leaf, mt') =>
      match merkle_tree_get_empty_run calls mt' with
      | .error e => .error e
      | .ok (leaves, mt'') => .ok (leaf :: leaves, mt'')

/-! ## `binary_upper` -/

/-- Largest value of a 32-bit `int`. -/
def INT_MAX : Int := 2 ^ 31 - 1

/-- Reduction of an integer into the 32-bit two's-complement range, the value an
`int` addition stores once it leaves the range (the kernel is built with
wrapping signed arithmetic). -/
def wrap_int (x : Int) : Int := (x + 2 ^ 31) % 2 ^ 32 - 2 ^ 31

/-- The five `num |= num >> k;` lines of `binary_upper`, `k = 1, 2, 4, 8, 16`. -/
def binary_upper_smear (num : Int) : Int :=
  let num := Int.lor num (num >>> 1)
  let num := Int.lor num (num >>> 2)
  let num := Int.lor num (num >>> 4)
  let num := Int.lor num (num >>> 8)
  let num := Int.lor num (num >>> 16)
  num

/-- `binary_upper`:
```
if (num <= 0) return 1;
if ((num & (num - 1)) == 0) return num;
num |= num >> 1; ... num |= num >> 16;
return num + 1;
```
-/
def binary_upper (num : Int) : Int :=
  if num ≤ 0 then 1
  else if Int.land num (num - 1) = 0 then num
  else wrap_int (binary_upper_smear num + 1)

/-! ## File-label actions -/

/-- `enum ima_file_label_action`, in declaration order. -/
inductive ima_file_label_action where
  | LABEL_HOOK_OPEN
  | LABEL_HOOK_READ
  | LABEL_HOOK_WRITE
  | LABEL_HOOK_CLOSE
  | LABEL_HOOK_SYNC
  | LABEL_HOOK_FSETXATTR
  | LABEL_HOOK_FTRUNCATE
  | LABEL_HOOK_LSEEK
  | LABEL_HOOK_FCNTL
  | LABEL_HOOK_MMAP
  | LABEL_HOOK_RENAME
  | LABEL_HOOK_TRUNCATE
  | LABEL_HOOK_FSTAT
  | LABEL_HOOK_UNLINK
  | LABEL_HOOK_LINK
  deriving DecidableEq, Repr, Fintype

/-- The integer value of each enumerator: `LABEL_HOOK_OPEN = 1` is written in the
source, every later enumerator is its predecessor plus one. -/
def ima_file_label_action.code : ima_file_label_action → Int
  | .LABEL_HOOK_OPEN => 1
  | .LABEL_HOOK_READ => 1 + 1
  | .LABEL_HOOK_WRITE => 1 + 1 + 1
  | .LABEL_HOOK_CLOSE => 1 + 1 + 1 + 1
  | .LABEL_HOOK_SYNC => 1 + 1 + 1 + 1 + 1
  | .LABEL_HOOK_FSETXATTR => 1 + 1 + 1 + 1 + 1 + 1
  | .LABEL_HOOK_FTRUNCATE => 1 + 1 + 1 + 1 + 1 + 1 + 1
  | .LABEL_HOOK_LSEEK => 1 + 1 + 1 + 1 + 1 + 1 + 1 + 1
  | .LABEL_HOOK_FCNTL => 1 + 1 + 1 + 1 + 1 + 1 + 1 + 1 + 1
  | .LABEL_HOOK_MMAP => 1 + 1 + 1 + 1 + 1 + 1 + 1 + 1 + 1 + 1
  | .LABEL_HOOK_RENAME => 1 + 1 + 1 + 1 + 1 + 1 + 1 + 1 + 1 + 1 + 1
  | .LABEL_HOOK_TRUNCATE => 1 + 1 + 1 + 1 + 1 + 1 + 1 + 1 + 1 + 1 + 1 + 1
  | .LABEL_HOOK_FSTAT => 1 + 1 + 1 + 1 + 1 + 1 + 1 + 1 + 1 + 1 + 1 + 1 + 1
  | .LABEL_HOOK_UNLINK => 1 + 1 + 1 + 1 + 1 + 1 + 1 + 1 + 1 + 1 + 1 + 1 + 1 + 1
  | .LABEL_HOOK_LINK => 1 + 1 + 1 + 1 + 1 + 1 + 1 + 1 + 1 + 1 + 1 + 1 + 1 + 1 + 1

/-- The enumerators in declaration order. -/
def ima_file_label_action.all : List ima_file_label_action :=
  [.LABEL_HOOK_OPEN, .LABEL_HOOK_READ, .LABEL_HOOK_WRITE, .LABEL_HOOK_CLOSE,
   .LABEL_HOOK_SYNC, .LABEL_HOOK_FSETXATTR, .LABEL_HOOK_FTRUNCATE, .LABEL_HOOK_LSEEK,
   .LABEL_HOOK_FCNTL, .LABEL_HOOK_MMAP, .LABEL_HOOK_RENAME, .LABEL_HOOK_TRUNCATE,
   .LABEL_HOOK_FSTAT, .LABEL_HOOK_UNLINK, .LABEL_HOOK_LINK]

/-- The source comment on the enum: `LABEL_HOOK_MMAP` is a dividing line, the
labels above it do not take their information from `struct file`. This is the
test `action > LABEL_HOOK_MMAP`. -/
def above_mmap (action : ima_file_label_action) : Bool :=
  decide (action.code > ima_file_label_action.LABEL_HOOK_MMAP.code)

/-- The specification's list of file-lifecycle events, in the order it gives
them: open, read, write, close, sync, set-extended-attribute, truncate, seek,
control-operation, memory-map, rename, unlink, link, stat. -/
inductive spec_lifecycle_event where
  | ev_open
  | ev_read
  | ev_write
  | ev_close
  | ev_sync
  | ev_set_extended_attribute
  | ev_truncate
  | ev_seek
  | ev_control_operation
  | ev_memory_map
  | ev_rename
  | ev_unlink
  | ev_link
  | ev_stat
  deriving DecidableEq, Repr, Fintype

/-- The listed event an enumerator stands for, read off its name. -/
def ima_file_label_action.spec_event : ima_file_label_action → spec_lifecycle_event
  | .LABEL_HOOK_OPEN => .ev_open
  | .LABEL_HOOK_READ => .ev_read
  | .LABEL_HOOK_WRITE => .ev_write
  | .LABEL_HOOK_CLOSE => .ev_close
  | .LABEL_HOOK_SYNC => .ev_sync
  | .LABEL_HOOK_FSETXATTR => .ev_set_extended_attribute
  | .LABEL_HOOK_FTRUNCATE => .ev_truncate
  | .LABEL_HOOK_LSEEK => .ev_seek
  | .LABEL_HOOK_FCNTL => .ev_control_operation
  | .LABEL_HOOK_MMAP => .ev_memory_map
  | .LABEL_HOOK_RENAME => .ev_rename
  | .LABEL_HOOK_TRUNCATE => .ev_truncate
  | .LABEL_HOOK_FSTAT => .ev_stat
  | .LABEL_HOOK_UNLINK => .ev_unlink
  | .LABEL_HOOK_LINK => .ev_link

/-! ## Namespace registry -/

/-- `struct ima_fpcr_h_table`: a counter and `IMA_MEASURE_HTABLE_SIZE` chains. -/
structure ima_fpcr_h_table (entry : Type) where
  len : Int
  queue : List (List entry)
  queue_size : queue.length = IMA_MEASURE_HTABLE_SIZE

/-- `GOLDEN_RATIO_32` of `<linux/hash.h>`. -/
def GOLDEN_RATIO_32 : Nat := 0x61C88647

/-- `GOLDEN_RATIO_64` of `<linux/hash.h>`. -/
def GOLDEN_RATIO_64 : Nat := 0x61C8864680B583EB

/-- Modelled from the spec: `hash_long` comes from `<linux/hash.h>`, which is not
part of this header. It is the kernel's multiplicative hash: the argument is
multiplied by the golden-ratio constant of the word size in word-sized unsigned
arithmetic and the top `bits` bits of the product are returned
(`hash_32` when `BITS_PER_LONG == 32`, `hash_64` when it is 64). -/
def hash_long (BITS_PER_LONG : Nat) (val : Nat) (bits : Nat) : Nat :=
  let golden := if BITS_PER_LONG = 32 then GOLDEN_RATIO_32 else GOLDEN_RATIO_64
  (((val % 2 ^ BITS_PER_LONG) * golden) % 2 ^ BITS_PER_LONG) >>> (BITS_PER_LONG - bits)

/-- `ima_fpcr_hash_key`: `return hash_long(id, IMA_HASH_BITS);` with
`unsigned int id`. -/
def ima_fpcr_hash_key (BITS_PER_LONG : Nat) (id : Nat) : Nat :=
  hash_long BITS_PER_LONG (id % 2 ^ 32) IMA_HASH_BITS

/-! ## File-access state machine -/

theorem htable_size_eq : IMA_MEASURE_HTABLE_SIZE = 1024 := by decide

theorem or_shift8_eq_add (a b : Nat) (ha : a < 256) : a ||| (b <<< 8) = a + 256 * b := by
  have h := Nat.mul_add_lt_is_or (show a < 2 ^ 8 from ha) b
  rw [Nat.shiftLeft_eq, Nat.lor_comm, Nat.mul_comm b (2 ^ 8), ← h]
  norm_num
  omega

theorem ima_hash_key_cons (d0 d1 : u8) (rest : List u8) :
    ima_hash_key (d0 :: d1 :: rest)
      = some ((d0.val ||| (d1.val <<< 8)) % IMA_MEASURE_HTABLE_SIZE) := by
  simp [ima_hash_key]

theorem ima_hash_key_short (digest : List u8) (h : digest.length < 2) :
    ima_hash_key digest = none := by
  match digest, h with
  | [], _ => simp [ima_hash_key]
  | [_], _ => simp [ima_hash_key]

theorem ima_hash_key_some_lt (digest : List u8) (k : Nat)
    (h : ima_hash_key digest = some k) : k < IMA_MEASURE_HTABLE_SIZE := by
  match digest, h with
  | [], h => simp [ima_hash_key] at h
  | [_], h => simp [ima_hash_key] at h
  | d0 :: d1 :: rest, h =>
    rw [ima_hash_key_cons] at h
    cases h
    exact Nat.mod_lt _ (by decide)

theorem hash_long_lt (w val bits : Nat) (h : bits ≤ w) : hash_long w val bits < 2 ^ bits := by
  unfold hash_long
  simp only [Nat.shiftRight_eq_div_pow]
  rw [Nat.div_lt_iff_lt_mul (Nat.pos_pow_of_pos _ (by decide))]
  have hw : 2 ^ bits * 2 ^ (w - bits) = 2 ^ w := by
    rw [← Nat.pow_add]; congr 1; omega
  rw [hw]
  exact Nat.mod_lt _ (Nat.pos_pow_of_pos _ (by decide))

/-! ### Bit-level facts behind `binary_upper` -/

theorem exists_pow_bracket (n : Nat) (hn : 0 < n) : ∃ k, 2 ^ k ≤ n ∧ n < 2 ^ (k + 1) :=
  ⟨Nat.log 2 n, Nat.pow_log_le_self 2 (by omega), Nat.lt_pow_succ_log_self (by decide) n⟩

theorem testBit_top (n k : Nat) (h1 : 2 ^ k ≤ n) (h2 : n < 2 ^ (k + 1)) :
    n.testBit k = true := by
  rw [Nat.testBit_to_div_mod]
  have hdiv : n / 2 ^ k = 1 :=
    Nat.div_eq_of_lt_le (by omega) (by rw [Nat.pow_succ] at h2; omega)
  simp [hdiv]

theorem testBit_above (n k i : Nat) (h2 : n < 2 ^ (k + 1)) (hi : k < i) :
    n.testBit i = false := by
  apply Nat.testBit_lt_two_pow
  exact lt_of_lt_of_le h2 (Nat.pow_le_pow_right (by decide) hi)

/-- One smearing line doubles the window of source bits that feed each bit. -/
theorem smear_step (n x a : Nat)
    (hx : ∀ i, x.testBit i = true ↔ ∃ j, j < a ∧ n.testBit (i + j) = true) (i : Nat) :
    (x ||| x >>> a).testBit i = true ↔ ∃ j, j < 2 * a ∧ n.testBit (i + j) = true := by
  rw [Nat.testBit_or, Nat.testBit_shiftRight, Bool.or_eq_true, hx, hx]
  constructor
  · rintro (⟨j, hj, h⟩ | ⟨j, hj, h⟩)
    · exact ⟨j, by omega, h⟩
    · refine ⟨a + j, by omega, ?_⟩
      rw [← Nat.add_assoc, Nat.add_comm i a]
      exact h
  · rintro ⟨j, hj, h⟩
    by_cases hja : j < a
    · exact Or.inl ⟨j, hja, h⟩
    · refine Or.inr ⟨j - a, by omega, ?_⟩
      have e : a + i + (j - a) = i + j := by omega
      rw [e]
      exact h

/-- The five smearing lines on a natural number. -/
theorem smear_nat_testBit (n i : Nat) :
    (((((n ||| n >>> 1) ||| (n ||| n >>> 1) >>> 2)
        ||| ((n ||| n >>> 1) ||| (n ||| n >>> 1) >>> 2) >>> 4)
        ||| (((n ||| n >>> 1) ||| (n ||| n >>> 1) >>> 2)
          ||| ((n ||| n >>> 1) ||| (n ||| n >>> 1) >>> 2) >>> 4) >>> 8)
        ||| ((((n ||| n >>> 1) ||| (n ||| n >>> 1) >>> 2)
          ||| ((n ||| n >>> 1) ||| (n ||| n >>> 1) >>> 2) >>> 4)
          ||| (((n ||| n >>> 1) ||| (n ||| n >>> 1) >>> 2)
            ||| ((n ||| n >>> 1) ||| (n ||| n >>> 1) >>> 2) >>> 4) >>> 8) >>> 16).testBit i = true
      ↔ ∃ j, j < 32 ∧ n.testBit (i + j) = true := by
  have h0 : ∀ i, n.testBit i = true ↔ ∃ j, j < 1 ∧ n.testBit (i + j) = true := by
    intro i
    constructor
    · intro h; exact ⟨0, by omega, h⟩
    · rintro ⟨j, hj, h⟩
      have : j = 0 := by omega
      subst this
      exact h
  have h1 := smear_step n _ 1 h0
  have h2 := smear_step n _ 2 h1
  have h4 := smear_step n _ 4 h2
  have h8 := smear_step n _ 8 h4
  exact smear_step n _ 16 h8 i

theorem binary_upper_smear_ofNat (n : Nat) :
    binary_upper_smear (n : Int)
      = ((((((n ||| n >>> 1) ||| (n ||| n >>> 1) >>> 2)
        ||| ((n ||| n >>> 1) ||| (n ||| n >>> 1) >>> 2) >>> 4)
        ||| (((n ||| n >>> 1) ||| (n ||| n >>> 1) >>> 2)
          ||| ((n ||| n >>> 1) ||| (n ||| n >>> 1) >>> 2) >>> 4) >>> 8)
        ||| ((((n ||| n >>> 1) ||| (n ||| n >>> 1) >>> 2)
          ||| ((n ||| n >>> 1) ||| (n ||| n >>> 1) >>> 2) >>> 4)
          ||| (((n ||| n >>> 1) ||| (n ||| n >>> 1) >>> 2)
            ||| ((n ||| n >>> 1) ||| (n ||| n >>> 1) >>> 2) >>> 4) >>> 8) >>> 16 : Nat) : Int) :=
  rfl

/-- Smearing a positive number whose top bit is bit `k`, `k < 32`, sets every bit
from `k` down. -/
theorem binary_upper_smear_eq (n k : Nat) (h1 : 2 ^ k ≤ n) (h2 : n < 2 ^ (k + 1))
    (hk : k < 32) : binary_upper_smear (n : Int) = ((2 ^ (k + 1) - 1 : Nat) : Int) := by
  rw [binary_upper_smear_ofNat]
  congr 1
  apply Nat.eq_of_testBit_eq
  intro i
  rw [Nat.testBit_two_pow_sub_one]
  by_cases hi : i < k + 1
  · rw [decide_eq_true hi, smear_nat_testBit]
    refine ⟨k - i, by omega, ?_⟩
    have e : i + (k - i) = k := by omega
    rw [e]
    exact testBit_top n k h1 h2
  · rw [decide_eq_false hi]
    apply Bool.eq_false_iff.mpr
    intro hb
    rw [smear_nat_testBit] at hb
    obtain ⟨j, _, hj⟩ := hb
    rw [testBit_above n k (i + j) h2 (by omega)] at hj
    cases hj

/-- `n & (n - 1) == 0` singles out the powers of two among the positive numbers. -/
theorem and_pred_eq_zero_iff (n : Nat) (hn : 0 < n) :
    n &&& (n - 1) = 0 ↔ ∃ k, n = 2 ^ k := by
  constructor
  · intro h
    obtain ⟨k, h1, h2⟩ := exists_pow_bracket n hn
    refine ⟨k, ?_⟩
    by_contra hne
    have h1' : 2 ^ k ≤ n - 1 := by omega
    have h2' : n - 1 < 2 ^ (k + 1) := by omega
    have hb : (n &&& (n - 1)).testBit k = true := by
      rw [Nat.testBit_and, testBit_top n k h1 h2, testBit_top (n - 1) k h1' h2']
      rfl
    rw [h, Nat.zero_testBit] at hb
    cases hb
  · rintro ⟨k, rfl⟩
    rw [Nat.and_pow_two_sub_one_eq_mod, Nat.mod_self]

theorem int_land_pred_ofNat (n : Nat) (hn : 0 < n) :
    Int.land (n : Int) ((n : Int) - 1) = ((n &&& (n - 1) : Nat) : Int) := by
  have e : (n : Int) - 1 = ((n - 1 : Nat) : Int) := by omega
  rw [e]
  rfl

theorem wrap_int_of_range (x : Int) (h1 : -2 ^ 31 ≤ x) (h2 : x < 2 ^ 31) : wrap_int x = x := by
  unfold wrap_int
  have h : (x + 2 ^ 31) % 2 ^ 32 = x + 2 ^ 31 := Int.emod_eq_of_lt (by omega) (by omega)
  omega

theorem binary_upper_of_pow (k : Nat) : binary_upper ((2 ^ k : Nat) : Int) = ((2 ^ k : Nat) : Int) := by
  have hpos : 0 < 2 ^ k := Nat.pos_pow_of_pos k (by decide)
  have hz : Int.land ((2 ^ k : Nat) : Int) (((2 ^ k : Nat) : Int) - 1) = 0 := by
    rw [int_land_pred_ofNat _ hpos, (and_pred_eq_zero_iff _ hpos).mpr ⟨k, rfl⟩]
    rfl
  unfold binary_upper
  rw [if_neg (by omega), if_pos hz]

theorem not_pow_of_strict_bracket (n k : Nat) (h1 : 2 ^ k < n) (h2 : n < 2 ^ (k + 1)) :
    ¬ ∃ j, n = 2 ^ j := by
  rintro ⟨j, rfl⟩
  have a : k < j := (Nat.pow_lt_pow_iff_right (by decide)).mp h1
  have b : j < k + 1 := (Nat.pow_lt_pow_iff_right (by decide)).mp h2
  omega

/-- Between two consecutive powers of two the smearing path is taken and yields
the upper one, reduced to the `int` range. -/
theorem binary_upper_of_strict_bracket (n k : Nat) (h1 : 2 ^ k < n) (h2 : n < 2 ^ (k + 1))
    (hk : k < 32) : binary_upper (n : Int) = wrap_int ((2 ^ (k + 1) : Nat) : Int) := by
  have hpos : 0 < n := by omega
  have hnz : ¬ Int.land (n : Int) ((n : Int) - 1) = 0 := by
    rw [int_land_pred_ofNat n hpos]
    intro h
    have h' : n &&& (n - 1) = 0 := by exact_mod_cast h
    exact not_pow_of_strict_bracket n k h1 h2 ((and_pred_eq_zero_iff n hpos).mp h')
  unfold binary_upper
  rw [if_neg (by omega), if_neg hnz, binary_upper_smear_eq n k (le_of_lt h1) h2 hk]
  congr 1
  have hp : 0 < 2 ^ (k + 1) := Nat.pos_pow_of_pos _ (by decide)
  omega

/-- Characterisation on naturals: for `0 < n ≤ 2^30` the result is `2^m` with `m`
the least exponent such that `n ≤ 2^m`. -/
theorem binary_upper_char (n : Nat) (hn : 0 < n) (hle : n ≤ 2 ^ 30) :
    ∃ m : Nat, m ≤ 30 ∧ binary_upper (n : Int) = ((2 ^ m : Nat) : Int) ∧ n ≤ 2 ^ m
      ∧ ∀ j : Nat, n ≤ 2 ^ j → m ≤ j := by
  obtain ⟨k, h1, h2⟩ := exists_pow_bracket n hn
  by_cases hk : n = 2 ^ k
  · subst hk
    refine ⟨k, ?_, binary_upper_of_pow k, le_refl _, ?_⟩
    · exact (Nat.pow_le_pow_iff_right (by decide)).mp hle
    · intro j hj
      exact (Nat.pow_le_pow_iff_right (by decide)).mp hj
  · have h1' : 2 ^ k < n := lt_of_le_of_ne h1 (Ne.symm hk)
    have hk30 : k < 30 := (Nat.pow_lt_pow_iff_right (by decide)).mp (lt_of_lt_of_le h1' hle)
    refine ⟨k + 1, by omega, ?_, le_of_lt h2, ?_⟩
    · rw [binary_upper_of_strict_bracket n k h1' h2 (by omega)]
      apply wrap_int_of_range
      · have : (0 : Int) ≤ ((2 ^ (k + 1) : Nat) : Int) := Int.ofNat_nonneg _
        omega
      · have hb : 2 ^ (k + 1) ≤ 2 ^ 30 := Nat.pow_le_pow_right (by decide) (by omega)
        have hb' : ((2 ^ (k + 1) : Nat) : Int) ≤ ((2 ^ 30 : Nat) : Int) := by exact_mod_cast hb
        have e : ((2 ^ 30 : Nat) : Int) = 1073741824 := by norm_num
        omega
    · intro j hj
      have : k < j := (Nat.pow_lt_pow_iff_right (by decide)).mp (lt_of_lt_of_le h1' hj)
      omega

/-- The same on `int`: for every `num ≤ 2^30` the result is `2^m` with `m` the
least exponent such that `max num 1 ≤ 2^m`. -/
theorem binary_upper_char_int (num : Int) (hle : num ≤ 2 ^ 30) :
    ∃ m : Nat, m ≤ 30 ∧ binary_upper num = 2 ^ m ∧ max num 1 ≤ 2 ^ m
      ∧ ∀ j : Nat, max num 1 ≤ (2 : Int) ^ j → m ≤ j := by
  by_cases hpos : num ≤ 0
  · refine ⟨0, by omega, ?_, ?_, fun j _ => Nat.zero_le j⟩
    · unfold binary_upper
      rw [if_pos hpos]
      rfl
    · rw [pow_zero]
      exact max_le (by omega) (le_refl 1)
  · obtain ⟨n, rfl⟩ := Int.eq_ofNat_of_zero_le (show 0 ≤ num by omega)
    have hn : 0 < n := by omega
    have hle' : n ≤ 2 ^ 30 := by exact_mod_cast hle
    obtain ⟨m, hm, hbu, hnm, hleast⟩ := binary_upper_char n hn hle'
    refine ⟨m, hm, ?_, ?_, ?_⟩
    · rw [hbu]; push_cast; rfl
    · have h1 : ((n : Nat) : Int) ≤ (2 : Int) ^ m := by exact_mod_cast hnm
      have h2 : (1 : Int) ≤ (2 : Int) ^ m := one_le_pow₀ (by norm_num)
      exact max_le h1 h2
    · intro j hj
      apply hleast
      have h1 : ((n : Nat) : Int) ≤ (2 : Int) ^ j := le_trans (le_max_left _ _) hj
      exact_mod_cast h1

/-! ### Leaf allocation -/

/-- A run of `calls` allocations from a tree whose next free leaf is `last_empty`
succeeds, handing out `last_empty, last_empty + 1, ...`, exactly when
`last_empty + calls` does not pass `MERKLE_TREE_SIZE`; otherwise it ends in
`Full`. The number of allocations a tree grants is thus
`MERKLE_TREE_SIZE - last_empty`: it is `MERKLE_TREE_SIZE` only for a tree that
starts with `last_empty = 0`. -/
theorem merkle_tree_get_empty_run_spec (calls : Nat) (mt : merkle_tree) :
    (mt.last_empty + calls ≤ MERKLE_TREE_SIZE →
        merkle_tree_get_empty_run calls mt
          = .ok ((List.range calls).map (fun (i : Nat) => mt.last_empty + (i : Int)),
              { mt with last_empty := mt.last_empty + calls }))
      ∧ (0 < calls → MERKLE_TREE_SIZE < mt.last_empty + calls →
          merkle_tree_get_empty_run calls mt = .error .Full) := by
  induction calls generalizing mt with
  | zero =>
    refine ⟨fun _ => ?_, fun h => absurd h (by decide)⟩
    simp [merkle_tree_get_empty_run]
  | succ c ih =>
    by_cases hfull : mt.last_empty ≥ MERKLE_TREE_SIZE
    · have hge : merkle_tree_get_empty mt = .error .Full := by
        simp [merkle_tree_get_empty, merkle_tree_isfull, hfull]
      refine ⟨fun h => ?_, fun _ _ => ?_⟩
      · push_cast at h; omega
      · simp [merkle_tree_get_empty_run, hge]
    · have hge : merkle_tree_get_empty mt
          = .ok (mt.last_empty, { mt with last_empty := mt.last_empty + 1 }) := by
        simp [merkle_tree_get_empty, merkle_tree_isfull, hfull]
      obtain ⟨ih1, ih2⟩ := ih { mt with last_empty := mt.last_empty + 1 }
      refine ⟨fun h => ?_, fun _ h => ?_⟩
      · have h' : mt.last_empty + 1 + (c : Int) ≤ MERKLE_TREE_SIZE := by push_cast at h; omega
        simp only [merkle_tree_get_empty_run, hge, ih1 h', List.range_succ_eq_map, List.map_cons,
          List.map_map]
        congr 2
        · congr 1
          · simp
          · apply List.map_congr_left
            intro i _
            simp only [Function.comp, Nat.succ_eq_add_one]
            push_cast
            omega
        · congr 1
          push_cast
          omega
      · have hc : 0 < c := by
          by_contra hc0
          have : c = 0 := by omega
          subst this
          simp at h
          omega
        have h' : MERKLE_TREE_SIZE < mt.last_empty + 1 + (c : Int) := by push_cast at h; omega
        simp [merkle_tree_get_empty_run, hge, ih2 hc h']

/-! ## Claims -/

/-- C1: for a digest of at least two bytes `ima_hash_key` is
`(digest[0] | digest[1] << 8) % IMA_MEASURE_HTABLE_SIZE`, the table size is
`1 << 10 = 1024`, and the value is the little-endian 16-bit number made of the
first two bytes, reduced modulo 1024. -/
theorem ima_hash_key_eq (digest : List u8) (h : 2 ≤ digest.length) :
    ima_hash_key digest
        = some (((digest.get ⟨0, by omega⟩).val ||| ((digest.get ⟨1, by omega⟩).val <<< 8))
            % IMA_MEASURE_HTABLE_SIZE)
      ∧ IMA_MEASURE_HTABLE_SIZE = 1 <<< IMA_HASH_BITS
      ∧ IMA_MEASURE_HTABLE_SIZE = 1024
      ∧ ima_hash_key digest
        = some (((digest.get ⟨0, by omega⟩).val + 256 * (digest.get ⟨1, by omega⟩).val)
            % 1024) := by
  match digest, h with
  | d0 :: d1 :: rest, _ =>
    refine ⟨ima_hash_key_cons d0 d1 rest, rfl, htable_size_eq, ?_⟩
    rw [ima_hash_key_cons, htable_size_eq]
    simp only [List.get_cons_zero, List.get, or_shift8_eq_add _ _ d0.isLt]

/-- Witness for C1 on the digest `ff 03 2a`: the bucket is `0x03ff = 1023`. -/
theorem ima_hash_key_eq_witness :
    ima_hash_key [255, 3, 42] = some 1023 := by
  have h := (ima_hash_key_eq [255, 3, 42] (by decide)).2.2.2
  simpa using h

/-- C2: `merkle_tree_isfull` holds exactly when `last_empty >= MERKLE_TREE_SIZE`,
with `MERKLE_TREE_SIZE = 64`: false for every `last_empty <= 63` (negative values
included), true for every `last_empty >= 64`. -/
theorem merkle_tree_isfull_iff (mt : merkle_tree) :
    MERKLE_TREE_SIZE = 64
      ∧ (merkle_tree_isfull mt = true ↔ mt.last_empty ≥ MERKLE_TREE_SIZE)
      ∧ (merkle_tree_isfull mt = true ↔ mt.last_empty ≥ 64)
      ∧ (merkle_tree_isfull mt = false ↔ mt.last_empty ≤ 63) := by
  unfold merkle_tree_isfull MERKLE_TREE_SIZE
  refine ⟨rfl, ?_, ?_, ?_⟩
  · simp
  · simp
  · simp only [decide_eq_false_iff_not, ge_iff_le, not_le]
    omega

/-- C3: whenever `ima_hash_key` returns a bucket, the bucket is below
`IMA_MEASURE_HTABLE_SIZE = 1024`, the length of `ima_h_table.queue`, so the chain
`queue[bucket]` exists; and it does return a bucket for every digest of at least
two bytes. -/
theorem ima_hash_key_in_table {entry : Type} (table : ima_h_table entry) (digest : List u8) :
    (∀ k, ima_hash_key digest = some k →
        0 ≤ k ∧ k < IMA_MEASURE_HTABLE_SIZE ∧ k < 1024 ∧ k < table.queue.length
          ∧ (table.queue[k]?).isSome = true)
      ∧ (2 ≤ digest.length → ∃ k, ima_hash_key digest = some k ∧ k < table.queue.length) := by
  have key : ∀ k, ima_hash_key digest = some k → k < table.queue.length := by
    intro k hk
    rw [table.queue_size]
    exact ima_hash_key_some_lt digest k hk
  refine ⟨?_, ?_⟩
  · intro k hk
    have h1 := ima_hash_key_some_lt digest k hk
    have h2 := key k hk
    refine ⟨Nat.zero_le k, h1, htable_size_eq ▸ h1, h2, ?_⟩
    simp [h2]
  · intro hlen
    match digest, hlen with
    | d0 :: d1 :: rest, _ =>
      exact ⟨_, ima_hash_key_cons d0 d1 rest, key _ (ima_hash_key_cons d0 d1 rest)⟩

/-- Witness for C3: in a table of 1024 empty chains the digest `ff ff` lands in
bucket 1023, the last one. -/
theorem ima_hash_key_in_table_witness :
    ima_hash_key [255, 255] = some 1023
      ∧ 1023 < (List.replicate 1024 ([] : List Unit)).length := by
  have h := (ima_hash_key_in_table
    (ima_h_table.mk 0 0 (List.replicate 1024 ([] : List Unit))
      (by rw [List.length_replicate, htable_size_eq])) [255, 255]).1
    1023 (by decide)
  exact ⟨by decide, h.2.2.2.1⟩

/-- C6: for every namespace id the registry bucket
`ima_fpcr_hash_key id = hash_long(id, IMA_HASH_BITS)` is below
`IMA_MEASURE_HTABLE_SIZE = 1024`, the length of `ima_fpcr_h_table.queue`, on a
32-bit and on a 64-bit kernel alike. -/
theorem ima_fpcr_hash_key_in_table {entry : Type} (table : ima_fpcr_h_table entry) (id : Nat) :
    ima_fpcr_hash_key 32 id < IMA_MEASURE_HTABLE_SIZE
      ∧ ima_fpcr_hash_key 64 id < IMA_MEASURE_HTABLE_SIZE
      ∧ ima_fpcr_hash_key 32 id < table.queue.length
      ∧ ima_fpcr_hash_key 64 id < table.queue.length
      ∧ IMA_MEASURE_HTABLE_SIZE = 1024 := by
  have h32 : ima_fpcr_hash_key 32 id < IMA_MEASURE_HTABLE_SIZE := by
    have h := hash_long_lt 32 (id % 2 ^ 32) IMA_HASH_BITS (by decide)
    rw [htable_size_eq]
    exact h
  have h64 : ima_fpcr_hash_key 64 id < IMA_MEASURE_HTABLE_SIZE := by
    have h := hash_long_lt 64 (id % 2 ^ 32) IMA_HASH_BITS (by decide)
    rw [htable_size_eq]
    exact h
  exact ⟨h32, h64, table.queue_size ▸ h32, table.queue_size ▸ h64, htable_size_eq⟩

/-- C7, as stated, fails: the enum has fifteen codes while the specification
lists fourteen events, so the codes cannot be matched one to one with the listed
events; `LABEL_HOOK_FTRUNCATE` and `LABEL_HOOK_TRUNCATE` are two different codes
for the one listed event truncate. -/
theorem ima_file_label_action_not_one_per_event :
    Fintype.card ima_file_label_action = 15
      ∧ Fintype.card spec_lifecycle_event = 14
      ∧ (¬ ∃ f : ima_file_label_action → spec_lifecycle_event, Function.Bijective f)
      ∧ ima_file_label_action.LABEL_HOOK_FTRUNCATE.code = 7
      ∧ ima_file_label_action.LABEL_HOOK_TRUNCATE.code = 12
      ∧ ima_file_label_action.LABEL_HOOK_FTRUNCATE.spec_event
          = ima_file_label_action.LABEL_HOOK_TRUNCATE.spec_event := by
  refine ⟨rfl, rfl, ?_, by decide, by decide, rfl⟩
  rintro ⟨f, hf⟩
  have h := Fintype.card_of_bijective hf
  have h15 : Fintype.card ima_file_label_action = 15 := rfl
  have h14 : Fintype.card spec_lifecycle_event = 14 := rfl
  omega

/-- C7, amended: the enum has fifteen action codes, pairwise distinct, exactly
the values 1 to 15; in declaration order they are open = 1, read = 2, write = 3,
close = 4, sync = 5, set-extended-attribute = 6, truncate = 7, seek = 8,
control-operation = 9, memory-map = 10, rename = 11, truncate = 12, stat = 13,
unlink = 14, link = 15. Every code stands for one of the fourteen listed events
and every listed event has a code; truncate has the two codes
`LABEL_HOOK_FTRUNCATE = 7` and `LABEL_HOOK_TRUNCATE = 12`, every other listed
event exactly one. -/
theorem ima_file_label_action_events :
    ima_file_label_action.all.map (fun a => (a.code, a.spec_event))
        = [(1, .ev_open), (2, .ev_read), (3, .ev_write), (4, .ev_close), (5, .ev_sync),
           (6, .ev_set_extended_attribute), (7, .ev_truncate), (8, .ev_seek),
           (9, .ev_control_operation), (10, .ev_memory_map), (11, .ev_rename),
           (12, .ev_truncate), (13, .ev_stat), (14, .ev_unlink), (15, .ev_link)]
      ∧ ima_file_label_action.all.length = 15
      ∧ (∀ a : ima_file_label_action, a ∈ ima_file_label_action.all)
      ∧ Function.Injective ima_file_label_action.code
      ∧ (∀ c : Int, (∃ a : ima_file_label_action, a.code = c) ↔ 1 ≤ c ∧ c ≤ 15)
      ∧ Function.Surjective ima_file_label_action.spec_event
      ∧ ima_file_label_action.LABEL_HOOK_FTRUNCATE.code = 7
      ∧ ima_file_label_action.LABEL_HOOK_TRUNCATE.code = 12
      ∧ (∀ c : Int, (∃ a : ima_file_label_action, a.code = c ∧ a.spec_event = .ev_truncate)
          ↔ c = 7 ∨ c = 12)
      ∧ (∀ a b : ima_file_label_action, a.spec_event = b.spec_event ↔
          (a = b
            ∨ (a = .LABEL_HOOK_FTRUNCATE ∧ b = .LABEL_HOOK_TRUNCATE)
            ∨ (a = .LABEL_HOOK_TRUNCATE ∧ b = .LABEL_HOOK_FTRUNCATE)))
      ∧ (∀ e : spec_lifecycle_event,
          (ima_file_label_action.all.filter (fun a => decide (a.spec_event = e))).length
            = if e = .ev_truncate then 2 else 1) := by
  refine ⟨by decide, rfl, ?_, ?_, ?_, ?_, by decide, by decide, ?_, ?_, ?_⟩
  · intro a; cases a <;> decide
  · intro a b h
    cases a <;> cases b <;> first | rfl | (exact absurd h (by decide))
  · intro c
    constructor
    · rintro ⟨a, rfl⟩
      cases a <;> decide
    · rintro ⟨h1, h2⟩
      have hc : c = 1 ∨ c = 2 ∨ c = 3 ∨ c = 4 ∨ c = 5 ∨ c = 6 ∨ c = 7 ∨ c = 8 ∨ c = 9
          ∨ c = 10 ∨ c = 11 ∨ c = 12 ∨ c = 13 ∨ c = 14 ∨ c = 15 := by omega
      rcases hc with h | h | h | h | h | h | h | h | h | h | h | h | h | h | h <;> subst h
      · exact ⟨.LABEL_HOOK_OPEN, rfl⟩
      · exact ⟨.LABEL_HOOK_READ, rfl⟩
      · exact ⟨.LABEL_HOOK_WRITE, rfl⟩
      · exact ⟨.LABEL_HOOK_CLOSE, rfl⟩
      · exact ⟨.LABEL_HOOK_SYNC, rfl⟩
      · exact ⟨.LABEL_HOOK_FSETXATTR, rfl⟩
      · exact ⟨.LABEL_HOOK_FTRUNCATE, rfl⟩
      · exact ⟨.LABEL_HOOK_LSEEK, rfl⟩
      · exact ⟨.LABEL_HOOK_FCNTL, rfl⟩
      · exact ⟨.LABEL_HOOK_MMAP, rfl⟩
      · exact ⟨.LABEL_HOOK_RENAME, rfl⟩
      · exact ⟨.LABEL_HOOK_TRUNCATE, rfl⟩
      · exact ⟨.LABEL_HOOK_FSTAT, rfl⟩
      · exact ⟨.LABEL_HOOK_UNLINK, rfl⟩
      · exact ⟨.LABEL_HOOK_LINK, rfl⟩
  · intro e
    cases e
    · exact ⟨.LABEL_HOOK_OPEN, rfl⟩
    · exact ⟨.LABEL_HOOK_READ, rfl⟩
    · exact ⟨.LABEL_HOOK_WRITE, rfl⟩
    · exact ⟨.LABEL_HOOK_CLOSE, rfl⟩
    · exact ⟨.LABEL_HOOK_SYNC, rfl⟩
    · exact ⟨.LABEL_HOOK_FSETXATTR, rfl⟩
    · exact ⟨.LABEL_HOOK_TRUNCATE, rfl⟩
    · exact ⟨.LABEL_HOOK_LSEEK, rfl⟩
    · exact ⟨.LABEL_HOOK_FCNTL, rfl⟩
    · exact ⟨.LABEL_HOOK_MMAP, rfl⟩
    · exact ⟨.LABEL_HOOK_RENAME, rfl⟩
    · exact ⟨.LABEL_HOOK_UNLINK, rfl⟩
    · exact ⟨.LABEL_HOOK_LINK, rfl⟩
    · exact ⟨.LABEL_HOOK_FSTAT, rfl⟩
  · intro c
    constructor
    · rintro ⟨a, rfl, ha⟩
      cases a <;> first | (exact Or.inl rfl) | (exact Or.inr rfl) | (exact absurd ha (by decide))
    · rintro (h | h) <;> subst h
      · exact ⟨.LABEL_HOOK_FTRUNCATE, rfl, rfl⟩
      · exact ⟨.LABEL_HOOK_TRUNCATE, rfl, rfl⟩
  · intro a b
    cases a <;> cases b <;> decide
  · intro e
    cases e <;> decide

/-- C8: `LABEL_HOOK_MMAP` is a dividing line of the enum. The codes, in
declaration order, are 1, 2, ..., 15 (distinct, consecutive, starting at
`LABEL_HOOK_OPEN = 1`); the ten open-file-handle actions OPEN, READ, WRITE,
CLOSE, SYNC, FSETXATTR, FTRUNCATE, LSEEK, FCNTL, MMAP have a code at most
`LABEL_HOOK_MMAP = 10`; RENAME, TRUNCATE, FSTAT, UNLINK, LINK have a code above
it; and the test `action > LABEL_HOOK_MMAP` is true on exactly the second group,
false on exactly the first. -/
theorem label_hook_mmap_dividing_line :
    ima_file_label_action.all.map ima_file_label_action.code
        = [1, 2, 3, 4, 5, 6, 7, 8, 9, 10, 11, 12, 13, 14, 15]
      ∧ (∀ a : ima_file_label_action, a ∈ ima_file_label_action.all)
      ∧ Function.Injective ima_file_label_action.code
      ∧ ima_file_label_action.LABEL_HOOK_OPEN.code = 1
      ∧ ima_file_label_action.LABEL_HOOK_MMAP.code = 10
      ∧ (∀ a : ima_file_label_action,
          a ∈ [.LABEL_HOOK_OPEN, .LABEL_HOOK_READ, .LABEL_HOOK_WRITE, .LABEL_HOOK_CLOSE,
               .LABEL_HOOK_SYNC, .LABEL_HOOK_FSETXATTR, .LABEL_HOOK_FTRUNCATE,
               .LABEL_HOOK_LSEEK, .LABEL_HOOK_FCNTL, .LABEL_HOOK_MMAP]
            ↔ a.code ≤ ima_file_label_action.LABEL_HOOK_MMAP.code)
      ∧ (∀ a : ima_file_label_action,
          a ∈ [.LABEL_HOOK_RENAME, .LABEL_HOOK_TRUNCATE, .LABEL_HOOK_FSTAT,
               .LABEL_HOOK_UNLINK, .LABEL_HOOK_LINK]
            ↔ a.code > ima_file_label_action.LABEL_HOOK_MMAP.code)
      ∧ (∀ a : ima_file_label_action,
          above_mmap a = true
            ↔ a ∈ [.LABEL_HOOK_RENAME, .LABEL_HOOK_TRUNCATE, .LABEL_HOOK_FSTAT,
                   .LABEL_HOOK_UNLINK, .LABEL_HOOK_LINK])
      ∧ (∀ a : ima_file_label_action,
          above_mmap a = false
            ↔ a ∈ [.LABEL_HOOK_OPEN, .LABEL_HOOK_READ, .LABEL_HOOK_WRITE, .LABEL_HOOK_CLOSE,
                   .LABEL_HOOK_SYNC, .LABEL_HOOK_FSETXATTR, .LABEL_HOOK_FTRUNCATE,
                   .LABEL_HOOK_LSEEK, .LABEL_HOOK_FCNTL, .LABEL_HOOK_MMAP]) := by
  refine ⟨by decide, ?_, ?_, by decide, by decide, ?_, ?_, ?_, ?_⟩
  · intro a; cases a <;> decide
  · intro a b h
    cases a <;> cases b <;> first | rfl | (exact absurd h (by decide))
  · intro a; cases a <;> decide
  · intro a; cases a <;> decide
  · intro a; cases a <;> decide
  · intro a; cases a <;> decide

/-- C9: for every `int num ≤ 2^30`, `binary_upper num` is the least power of two
that is at least `max num 1`; it is 1 for `num ≤ 0`, `num` itself when `num` is a
power of two, and otherwise the one power of two `p` with `p / 2 < num < p`;
hence it is idempotent and monotone on that range. The bound is tight: for
`2^30 < num ≤ 2^31 - 1` the smearing gives `2^31 - 1`, the final `+ 1` leaves the
`int` range, and the value returned (the wrapped `-2^31`) is no power of two and
is below `num`. -/
theorem binary_upper_least_power_of_two (num num' : Int) :
    (num ≤ 2 ^ 30 →
        (∃ k : Nat, binary_upper num = 2 ^ k)
          ∧ max num 1 ≤ binary_upper num
          ∧ (∀ j : Nat, max num 1 ≤ (2 : Int) ^ j → binary_upper num ≤ 2 ^ j)
          ∧ binary_upper (binary_upper num) = binary_upper num
          ∧ (num' ≤ num → binary_upper num' ≤ binary_upper num))
      ∧ (num ≤ 0 → binary_upper num = 1)
      ∧ (num ≤ 2 ^ 30 → ∀ k : Nat, num = 2 ^ k → binary_upper num = num)
      ∧ (0 < num → num ≤ 2 ^ 30 → (¬ ∃ k : Nat, num = 2 ^ k) →
          ∃ k : Nat, binary_upper num = 2 ^ k ∧ (2 : Int) ^ k / 2 < num ∧ num < 2 ^ k
            ∧ ∀ j : Nat, (2 : Int) ^ j / 2 < num → num < 2 ^ j → j = k)
      ∧ (2 ^ 30 < num → num ≤ 2 ^ 31 - 1 →
          binary_upper_smear num = 2 ^ 31 - 1
            ∧ INT_MAX < binary_upper_smear num + 1
            ∧ binary_upper num = wrap_int (binary_upper_smear num + 1)
            ∧ binary_upper num = -2 ^ 31
            ∧ binary_upper num < num
            ∧ ∀ k : Nat, binary_upper num ≠ 2 ^ k) := by
  have pow_of : ∀ k : Nat, binary_upper ((2 : Int) ^ k) = 2 ^ k := by
    intro k
    have h := binary_upper_of_pow k
    push_cast at h
    exact h
  have half : ∀ k : Nat, (2 : Int) ^ (k + 1) / 2 = 2 ^ k := by
    intro k
    rw [pow_succ]
    exact Int.mul_ediv_cancel _ (by norm_num)
  refine ⟨?_, ?_, ?_, ?_, ?_⟩
  · intro hle
    obtain ⟨m, _, hbu, hmax, hleast⟩ := binary_upper_char_int num hle
    refine ⟨⟨m, hbu⟩, hbu ▸ hmax, ?_, ?_, ?_⟩
    · intro j hj
      rw [hbu]
      exact pow_le_pow_right₀ (by norm_num) (hleast j hj)
    · rw [hbu, pow_of]
    · intro hle'
      obtain ⟨m', _, hbu', _, hleast'⟩ := binary_upper_char_int num' (le_trans hle' hle)
      rw [hbu, hbu']
      apply pow_le_pow_right₀ (by norm_num)
      apply hleast'
      exact le_trans (max_le_max hle' (le_refl 1)) hmax
  · intro h0
    unfold binary_upper
    rw [if_pos h0]
  · rintro _ k rfl
    exact pow_of k
  · intro hpos hle hnp
    obtain ⟨m, _, hbu, hmax, hleast⟩ := binary_upper_char_int num hle
    have hnum : num ≤ 2 ^ m := le_trans (le_max_left _ _) hmax
    have hlt : num < 2 ^ m := lt_of_le_of_ne hnum (fun e => hnp ⟨m, e⟩)
    have hm : m ≠ 0 := by
      rintro rfl
      rw [pow_zero] at hlt
      omega
    obtain ⟨p, rfl⟩ := Nat.exists_eq_succ_of_ne_zero hm
    have hlow : (2 : Int) ^ p < num := by
      by_contra hc
      have hc' : num ≤ (2 : Int) ^ p := not_lt.mp hc
      have h1 : (1 : Int) ≤ (2 : Int) ^ p := one_le_pow₀ (by norm_num)
      have := hleast p (max_le hc' h1)
      omega
    refine ⟨p + 1, hbu, ?_, hlt, ?_⟩
    · rw [half]; exact hlow
    · intro j hj1 hj2
      have h1 : (1 : Int) ≤ (2 : Int) ^ j := one_le_pow₀ (by norm_num)
      have hge := hleast j (max_le (le_of_lt hj2) h1)
      by_contra hne
      have hj : p + 1 < j := by omega
      obtain ⟨q, rfl⟩ := Nat.exists_eq_succ_of_ne_zero (show j ≠ 0 by omega)
      rw [Nat.succ_eq_add_one, half] at hj1
      have hpq : (2 : Int) ^ (p + 1) ≤ 2 ^ q := pow_le_pow_right₀ (by norm_num) (by omega)
      omega
  · intro hlo hhi
    obtain ⟨n, rfl⟩ := Int.eq_ofNat_of_zero_le (show 0 ≤ num by
      have : (0 : Int) < 2 ^ 30 := by norm_num
      omega)
    have h1 : 2 ^ 30 < n := by exact_mod_cast hlo
    have h2 : n < 2 ^ (30 + 1) := by
      have : (n : Int) < 2 ^ 31 := by omega
      exact_mod_cast this
    have hs : binary_upper_smear (n : Int) = 2 ^ 31 - 1 := by
      rw [binary_upper_smear_eq n 30 (le_of_lt h1) h2 (by decide)]
      norm_num
    have hb : binary_upper (n : Int) = -2 ^ 31 := by
      rw [binary_upper_of_strict_bracket n 30 h1 h2 (by decide)]
      decide
    refine ⟨hs, ?_, ?_, hb, ?_, ?_⟩
    · rw [hs]; decide
    · rw [hb, hs]; decide
    · rw [hb]
      have : (0 : Int) < 2 ^ 30 := by norm_num
      omega
    · intro k hk
      rw [hb] at hk
      have : (0 : Int) < 2 ^ k := by positivity
      omega

/-- Witness for C9: `binary_upper 5 = 8`, reached through the branch for numbers
that are no power of two, and `binary_upper` at `2^30 + 1` wraps to `-2^31`. -/
theorem binary_upper_least_power_of_two_witness :
    (∃ k : Nat, binary_upper 5 = 2 ^ k ∧ (2 : Int) ^ k / 2 < 5 ∧ (5 : Int) < 2 ^ k
        ∧ ∀ j : Nat, (2 : Int) ^ j / 2 < 5 → (5 : Int) < 2 ^ j → j = k)
      ∧ binary_upper (2 ^ 30 + 1) = -2 ^ 31 := by
  refine ⟨(binary_upper_least_power_of_two 5 0).2.2.2.1 (by decide) (by decide) ?_,
    ((binary_upper_least_power_of_two (2 ^ 30 + 1) 0).2.2.2.2 (by decide) (by decide)).2.2.2.1⟩
  rintro ⟨k, hk⟩
  have h3 : k < 3 := by
    by_contra hc
    have : (2 : Int) ^ 3 ≤ 2 ^ k := pow_le_pow_right₀ (by norm_num) (not_lt.mp hc)
    omega
  interval_cases k <;> omega

/-- C10: `ima_hash_key` reads ten bits of the digest. For a digest of at least
two bytes the bucket is `digest[0] + 256 * (digest[1] mod 4)`; two digests that
agree on byte 0 and on the two low bits of byte 1 share a bucket, whatever their
other bytes and the six high bits of byte 1; and every bucket 0..1023 is the
bucket of some digest. -/
theorem ima_hash_key_ten_bits (d0 d1 e0 e1 : u8) (rest rest' : List u8) (b : Nat) :
    ima_hash_key (d0 :: d1 :: rest) = some (d0.val + 256 * (d1.val % 4))
      ∧ (d0 = e0 → d1.val % 4 = e1.val % 4 →
          ima_hash_key (d0 :: d1 :: rest) = ima_hash_key (e0 :: e1 :: rest'))
      ∧ (b < 1024 → ∃ digest : List u8, ima_hash_key digest = some b) := by
  have key : ∀ (x y : u8) (r : List u8),
      ima_hash_key (x :: y :: r) = some (x.val + 256 * (y.val % 4)) := by
    intro x y r
    rw [ima_hash_key_cons, htable_size_eq, or_shift8_eq_add _ _ x.isLt]
    have := x.isLt
    congr 1
    omega
  refine ⟨key d0 d1 rest, ?_, ?_⟩
  · intro h0 h1
    rw [key, key, h0, h1]
  · intro hb
    refine ⟨[⟨b % 256, by omega⟩, ⟨b / 256, by omega⟩], ?_⟩
    rw [key]
    congr 1
    simp only
    omega

/-- Witness for C10: `2a ff 00` and `2a 03 99` differ in the high bits of byte 1
and in byte 2, and share bucket `0x32a = 810`. -/
theorem ima_hash_key_ten_bits_witness :
    ima_hash_key [42, 255, 0] = ima_hash_key [42, 3, 153]
      ∧ ∃ digest : List u8, ima_hash_key digest = some 1023 :=
  ⟨(ima_hash_key_ten_bits 42 255 42 3 [0] [153] 1023).2.1 rfl (by decide),
    (ima_hash_key_ten_bits 42 255 42 3 [0] [153] 1023).2.2 (by decide)⟩

end IMA
